import Mathlib

set_option maxRecDepth 8192

/-!
Verification of the job-ingestion / evaluation-cache system.

The development shallowly embeds:
* the SQL schema of `src/supabase/migrations/001_initial_schema.sql` and
  `src/supabase_db/migrations/002_enhance_jobs_schema.sql` (tables, uniqueness
  constraints, CHECK constraints, indexes);
* the content-hash (fingerprint) formula of
  `src/test/DATA_QUALITY_SUGGESTIONS.md` §1;
* the frontend merge logic of
  `src/glassresumatch-ai/services/jobService.ts` (fetchJobsWithEvaluations);
* the evaluation cache, in-flight coordination, canonical-store operations and
  batch task scheduler, whose backend implementation is not part of the
  repository snapshot and is therefore modelled from the specification
  (marked `Modelled from the spec:` on each such definition).
-/

/- ===================== SQL schema embedding ===================== -/

/-- A column of a SQL table; `isUnique` records a PRIMARY KEY or UNIQUE
constraint on that column. -/
structure SqlColumn where
  name : String
  isUnique : Bool
deriving DecidableEq

/-- A secondary index created by the migrations; `isUnique` records whether it
was created with CREATE UNIQUE INDEX. -/
structure SqlIndex where
  idxName : String
  column : String
  isUnique : Bool
deriving DecidableEq

/-- Columns of the `jobs` table, from 001_initial_schema.sql (lines 12-26)
plus the columns added by 002_enhance_jobs_schema.sql. Only `id` is
PRIMARY KEY; no other column carries a uniqueness constraint. -/
def jobsColumns : List SqlColumn :=
  [⟨"id", true⟩, ⟨"company_name", false⟩, ⟨"title", false⟩, ⟨"location", false⟩,
   ⟨"description_text", false⟩, ⟨"job_url", false⟩, ⟨"posted_at", false⟩,
   ⟨"seniority_level", false⟩, ⟨"employment_type", false⟩,
   ⟨"applicants_count", false⟩, ⟨"company_website", false⟩,
   ⟨"created_at", false⟩, ⟨"updated_at", false⟩,
   ⟨"status", false⟩, ⟨"job_function", false⟩, ⟨"industries", false⟩,
   ⟨"salary_min", false⟩, ⟨"salary_max", false⟩, ⟨"salary_currency", false⟩,
   ⟨"salary_interval", false⟩, ⟨"salary_info", false⟩, ⟨"benefits", false⟩,
   ⟨"company_linkedin_url", false⟩, ⟨"company_logo", false⟩,
   ⟨"company_description", false⟩, ⟨"company_slogan", false⟩,
   ⟨"company_employees_count", false⟩, ⟨"company_city", false⟩,
   ⟨"company_state", false⟩, ⟨"company_country", false⟩,
   ⟨"company_postal_code", false⟩, ⟨"company_street_address", false⟩,
   ⟨"job_poster_name", false⟩, ⟨"job_poster_title", false⟩,
   ⟨"job_poster_profile_url", false⟩, ⟨"apply_url", false⟩,
   ⟨"input_url", false⟩]

/-- Indexes created on `jobs` by 001_initial_schema.sql and
002_enhance_jobs_schema.sql; every one is a plain CREATE INDEX. -/
def jobsIndexes : List SqlIndex :=
  [⟨"idx_jobs_company", "company_name", false⟩,
   ⟨"idx_jobs_status", "status", false⟩,
   ⟨"idx_jobs_location_city", "company_city", false⟩,
   ⟨"idx_jobs_location_country", "company_country", false⟩]

/-- Columns of the `job_evaluations` table from 001_initial_schema.sql
(lines 29-57): `id` is PRIMARY KEY and `job_id` is UNIQUE NOT NULL. -/
def jobEvaluationsColumns : List SqlColumn :=
  [⟨"id", true⟩, ⟨"job_id", true⟩, ⟨"company_name", false⟩,
   ⟨"title_role", false⟩, ⟨"job_url", false⟩, ⟨"verdict", false⟩,
   ⟨"job_match_score", false⟩, ⟨"summary", false⟩, ⟨"required_exp", false⟩,
   ⟨"recommended_action", false⟩, ⟨"gaps", false⟩,
   ⟨"improvement_suggestions", false⟩, ⟨"interview_tips", false⟩,
   ⟨"jd_keywords", false⟩, ⟨"matched_keywords", false⟩,
   ⟨"missing_keywords", false⟩, ⟨"model_used", false⟩,
   ⟨"evaluated_at", false⟩, ⟨"raw_response", false⟩]

/-- Allowed verdict strings, from the CHECK constraint on
`job_evaluations.verdict` (001_initial_schema.sql line 39). -/
def verdictValues : List String := ["Strong Match", "Moderate Match", "Weak Match"]

/-- Allowed recommended actions, from the CHECK constraint on
`job_evaluations.recommended_action` (001_initial_schema.sql line 43). -/
def recommendedActionValues : List String := ["apply", "tailor", "skip"]

/-- Allowed job lifecycle statuses, from the CHECK constraint added by
002_enhance_jobs_schema.sql (line 6). -/
def jobStatusValues : List String := ["active", "archived", "deleted"]

/-- Allowed task statuses, from the CHECK constraint on `tasks.status`
(001_initial_schema.sql line 85). -/
def taskStatusValues : List String := ["queued", "running", "completed", "failed"]

/- ===================== Fingerprint ===================== -/

/-- The input of the dedup content hash, from
src/test/DATA_QUALITY_SUGGESTIONS.md §1: a SHA-256 hash of
`title + company + description_text[0:100]`. SHA-256 is deterministic and
modelled as collision-free, so fingerprints are compared through their hash
inputs; no case or whitespace normalization appears in the source formula. -/
def fingerprintInput (title company descriptionText : String) : String :=
  title ++ company ++ descriptionText.take 100

/- ===================== Evaluations store ===================== -/

/-- A row of the `job_evaluations` table, restricted to the key and the
CHECK-constrained fields plus `model_used` as a representative payload field.
Every constrained column is nullable in the schema, hence `Option`. -/
structure EvaluationRow where
  jobId : String
  verdict : Option String
  jobMatchScore : Option Int
  recommendedAction : Option String
  modelUsed : Option String
deriving DecidableEq

/-- SQL semantics of `CHECK (verdict IN (...))`: a NULL value passes the
check (the predicate is UNKNOWN, which does not violate the constraint). -/
def verdictCheck : Option String → Bool
  | none => true
  | some v => decide (v ∈ verdictValues)

/-- SQL semantics of `CHECK (job_match_score BETWEEN 0 AND 100)`:
NULL passes. -/
def scoreCheck : Option Int → Bool
  | none => true
  | some s => decide (0 ≤ s ∧ s ≤ 100)

/-- SQL semantics of `CHECK (recommended_action IN (...))`: NULL passes. -/
def actionCheck : Option String → Bool
  | none => true
  | some a => decide (a ∈ recommendedActionValues)

/-- Conjunction of the three CHECK constraints of `job_evaluations`. -/
def rowPassesChecks (r : EvaluationRow) : Bool :=
  verdictCheck r.verdict && scoreCheck r.jobMatchScore && actionCheck r.recommendedAction

/-- Write to the evaluations table honouring `job_id TEXT UNIQUE`: the row
for an existing `job_id` is replaced in place, otherwise the row is
appended. -/
def upsertEvaluation : List EvaluationRow → EvaluationRow → List EvaluationRow
  | [], r => [r]
  | q :: tbl, r =>
    if q.jobId = r.jobId then r :: tbl else q :: upsertEvaluation tbl r

/-- A write to `job_evaluations` as admitted by the database: rejected when a
CHECK constraint is violated, otherwise an upsert keyed by `job_id`. -/
def writeEvaluation (tbl : List EvaluationRow) (r : EvaluationRow) :
    Option (List EvaluationRow) :=
  if rowPassesChecks r then some (upsertEvaluation tbl r) else none

/-- Read of the stored evaluation for a job: the lookup is keyed by `job_id`
alone (the table has no resume-version column). -/
def getStoredEvaluation (tbl : List EvaluationRow) (j : String) :
    Option EvaluationRow :=
  tbl.find? (fun q => q.jobId == j)

/-- The in-memory cache key proposed in src/unnamed/part_003 (line 40):
`eval:{job_id}:{master_resume_version}`. -/
def cacheKeyFor (jobId resumeVersion : String) : String :=
  "eval:" ++ jobId ++ ":" ++ resumeVersion

/-- The job ids of the rows of an evaluations table. -/
def evalJobIds (tbl : List EvaluationRow) : List String :=
  tbl.map (fun q => q.jobId)

/- ===================== Canonical store and ingestion ===================== -/

/-- Job lifecycle status, from the CHECK constraint of
002_enhance_jobs_schema.sql. -/
inductive JobStatus where
  | active
  | archived
  | deleted
deriving DecidableEq

/-- The structured fields carried by a validated candidate record
(spec §3 RawPosting / §4.2 CandidateRecord), with the stable id under which
the posting is stored (`jobs.id`). -/
structure CandidateRecord where
  id : String
  title : String
  company : String
  location : String
  descriptionText : String
  postedAt : String
  sourceUrl : String
deriving DecidableEq

/-- A canonical job record: candidate fields, lifecycle status, ingestion
timestamp and last-seen timestamp (spec §3 JobRecord, `jobs` table). -/
structure JobRecord where
  cand : CandidateRecord
  status : JobStatus
  firstSeen : Nat
  lastSeen : Nat
deriving DecidableEq

/-- Modelled from the spec: the canonical-store upsert (§4.3), whose backend
implementation is not in the repository snapshot. Keyed by the stable
external id (`jobs.id` PRIMARY KEY; DATA_QUALITY_SUGGESTIONS.md: merge
based on `job_id`): an existing record is updated in place (candidate
fields win, last-seen refreshed, status and first-seen kept, isNew=false);
a novel id is appended as a fresh Active record (isNew=true). -/
def upsertJob : List JobRecord → CandidateRecord → Nat → List JobRecord × Bool
  | [], c, now => ([⟨c, JobStatus.active, now, now⟩], true)
  | r :: db, c, now =>
    if r.cand.id = c.id then
      ({ r with cand := c, lastSeen := now } :: db, false)
    else
      let p := upsertJob db c now
      (r :: p.1, p.2)

/-- Modelled from the spec: ingestion of a batch is the left fold of the
upsert over the batch (§2 data flow, §4.3). -/
def ingest (db : List JobRecord) (batch : List CandidateRecord) (now : Nat) :
    List JobRecord :=
  batch.foldl (fun d c => (upsertJob d c now).1) db

/-- The external ids present in the store. -/
def jobIds (db : List JobRecord) : List String := db.map (fun r => r.cand.id)

/-- A job record without its last-seen timestamp. -/
def eraseLastSeen (r : JobRecord) : CandidateRecord × JobStatus × Nat :=
  (r.cand, r.status, r.firstSeen)

/-- Lookup of the (timestamp-erased) record stored under an id. -/
def elookup (db : List JobRecord) (j : String) :
    Option (CandidateRecord × JobStatus × Nat) :=
  (db.find? (fun r => r.cand.id == j)).map eraseLastSeen

/-- The last candidate of a batch carrying a given id (the write that wins
the fold). -/
def lastMatch (batch : List CandidateRecord) (j : String) :
    Option CandidateRecord :=
  batch.foldl (fun acc c => if c.id = j then some c else acc) none

/-- Status and first-seen timestamp an upsert leaves in place: those of the
existing record if any, else `Active` and the ingestion time. -/
def stfsOf (o : Option (CandidateRecord × JobStatus × Nat)) (t : Nat) :
    JobStatus × Nat :=
  match o with
  | some p => p.2
  | none => (JobStatus.active, t)

/-- Ids present in the store after ingesting a batch on top of `acc`. -/
def idsAfter (acc : List String) (batch : List CandidateRecord) : List String :=
  batch.foldl (fun a c => if c.id ∈ a then a else a ++ [c.id]) acc

/-- The two shared durable stores: canonical job records and their
evaluations (spec §5). -/
structure CanonicalStore where
  jobs : List JobRecord
  evals : List EvaluationRow
deriving DecidableEq

/-- Modelled from the spec: bulk soft delete (§4.3, §3 JobRecord lifecycle;
frontend caller src/glassresumatch-ai/services/jobService.ts deleteJobs).
Deletion is a pure status transition on the `jobs` rows; no row of either
table is removed, so the `ON DELETE CASCADE` of `job_evaluations.job_id`
never fires. -/
def softDeleteJobs (s : CanonicalStore) (ids : List String) : CanonicalStore :=
  { s with
    jobs := s.jobs.map (fun r =>
      if r.cand.id ∈ ids then { r with status := JobStatus.deleted } else r) }

/-- Modelled from the spec: the default `list` query excludes Deleted
records (§4.3 query contract). -/
def listJobs (s : CanonicalStore) : List JobRecord :=
  s.jobs.filter (fun r =>
    match r.status with
    | JobStatus.deleted => false
    | _ => true)

/-- Modelled from the spec: `get(externalID, includeDeleted)`; a Deleted
record is only returned when the include-deleted flag is set (§4.3). -/
def getJob (s : CanonicalStore) (j : String) (includeDeleted : Bool) :
    Option JobRecord :=
  match s.jobs.find? (fun r => r.cand.id == j) with
  | none => none
  | some r =>
    if includeDeleted = false ∧ r.status = JobStatus.deleted then none else some r

/- ===================== Evaluation cache, sequential view ===================== -/

/-- Modelled from the spec: one `getOrCompute` call against the durable
result store (§4.4 steps 1-3; pseudocode of src/unnamed/part_003 lines
100-104: result cached only after a successful evaluate). Returns the
caller-visible result, the store after the call, and the number of
Evaluator invocations the call performed (0 or 1). With `force = true` the
cache lookup is bypassed and the Evaluator is re-invoked (spec §6). -/
def getOrCompute {α : Type} (store : Option α) (force : Bool)
    (compute : Except String α) : Except String α × Option α × Nat :=
  match store, force with
  | some r, false => (Except.ok r, some r, 0)
  | _, _ =>
    match compute with
    | Except.ok v => (Except.ok v, some v, 1)
    | Except.error e => (Except.error e, store, 1)

/- ===================== Evaluation cache, concurrent view ===================== -/

/-- Phase of one concurrent `getOrCompute` caller for a fixed
EvaluationKey: ready to act, holding the in-flight claim while the
Evaluator runs, or finished with a result. -/
inductive CallerPhase where
  | ready
  | computing
  | finished (r : Nat)
deriving DecidableEq

/-- Modelled from the spec: shared state of the per-key coordination (§4.4):
the durable result store for the key, the in-flight claim (holding caller's
index, if any), and the phase of each caller. -/
structure FlightState where
  store : Option Nat
  claim : Option Nat
  callers : List CallerPhase
deriving DecidableEq

/-- One atomic event of the per-key protocol. -/
inductive CacheEvent where
  | hitRead (i : Nat)
  | acquireClaim (i : Nat)
  | computeOk (i : Nat) (v : Nat)
  | computeFail (i : Nat)
deriving DecidableEq

/-- Modelled from the spec: the interleaved small-step semantics of §4.4.
`hitRead`: a ready caller finds a stored result and returns it (step 1).
`acquireClaim`: on miss, a ready caller wins the exclusive in-flight claim
(step 2); enabled only when no claim is held. `computeOk`: the claim
holder's Evaluator call succeeds with value `v`; the result is persisted
and the claim released (step 3). `computeFail`: the claim holder's
Evaluator call fails; the claim is released without writing a result and
the caller may retry (step 3, failure path). `none` means the event is not
enabled in the given state (a blocked caller simply takes no step). -/
def flightStep (s : FlightState) : CacheEvent → Option FlightState
  | CacheEvent.hitRead i =>
    match s.callers[i]?, s.store with
    | some CallerPhase.ready, some r =>
      some { s with callers := s.callers.set i (CallerPhase.finished r) }
    | _, _ => none
  | CacheEvent.acquireClaim i =>
    match s.callers[i]?, s.store, s.claim with
    | some CallerPhase.ready, none, none =>
      some { s with claim := some i, callers := s.callers.set i CallerPhase.computing }
    | _, _, _ => none
  | CacheEvent.computeOk i v =>
    match s.callers[i]?, s.claim with
    | some CallerPhase.computing, some j =>
      if i = j then
        some { store := some v, claim := none,
               callers := s.callers.set i (CallerPhase.finished v) }
      else none
    | _, _ => none
  | CacheEvent.computeFail i =>
    match s.callers[i]?, s.claim with
    | some CallerPhase.computing, some j =>
      if i = j then
        some { s with claim := none, callers := s.callers.set i CallerPhase.ready }
      else none
    | _, _ => none

/-- Run of a sequence of interleaved events; fails if some event is not
enabled where it occurs. -/
def flightRun (s : FlightState) : List CacheEvent → Option FlightState
  | [] => some s
  | e :: tr => (flightStep s e).bind (fun t => flightRun t tr)

/-- Initial state for `n` concurrent callers of the same key: empty store,
no claim held, every caller ready. -/
def initFlight (n : Nat) : FlightState :=
  ⟨none, none, List.replicate n CallerPhase.ready⟩

/-- Whether an event is an Evaluator invocation (successful or failed). -/
def isInvocation : CacheEvent → Bool
  | CacheEvent.computeOk _ _ => true
  | CacheEvent.computeFail _ => true
  | _ => false

/-- Whether an event is a successful Evaluator invocation. -/
def isOkInvocation : CacheEvent → Bool
  | CacheEvent.computeOk _ _ => true
  | _ => false

/-- Number of Evaluator invocations in a trace. -/
def invocationCount (tr : List CacheEvent) : Nat := tr.countP isInvocation

/-- Whether a trace contains no failed Evaluator invocation. -/
def noFailures (tr : List CacheEvent) : Bool :=
  tr.all (fun e =>
    match e with
    | CacheEvent.computeFail _ => false
    | _ => true)

/-- 1 if a result is stored, else 0. -/
def storeFlag (o : Option Nat) : Nat :=
  match o with
  | some _ => 1
  | none => 0

/-- Every caller has finished. -/
def allFinished (s : FlightState) : Prop :=
  ∀ p ∈ s.callers, ∃ r, p = CallerPhase.finished r

/-- Invariant of the per-key protocol: the claim holder is a computing
caller and conversely, a held claim means nothing is stored yet, and every
finished caller holds exactly the stored result. -/
structure GoodFlight (s : FlightState) : Prop where
  claim_computing : ∀ i, s.claim = some i → s.callers[i]? = some CallerPhase.computing
  computing_claim : ∀ i, s.callers[i]? = some CallerPhase.computing → s.claim = some i
  claim_store : ∀ i, s.claim = some i → s.store = none
  finished_store : ∀ (i r : Nat), s.callers[i]? = some (CallerPhase.finished r) → s.store = some r

/- ===================== Task scheduler ===================== -/

/-- Per-item outcome recorded in a batch Task (spec §3 Task). -/
inductive ItemOutcome where
  | succeeded
  | failed (msg : String)
deriving DecidableEq

/-- Task status, from `tasks.status` CHECK of 001_initial_schema.sql and
the `TaskStatus` union of src/glassresumatch-ai/services/apiClient.ts. -/
inductive TaskPhase where
  | queued
  | running
  | completed
  | failed
deriving DecidableEq

/-- A batch Task: status, keys not yet attempted, per-item outcomes,
progress counters, and the systemic error, if any (spec §3 Task, `tasks`
table, `TaskStatus` interface). -/
structure SchedTask where
  phase : TaskPhase
  pending : List String
  outcomes : List ItemOutcome
  completedCount : Nat
  total : Nat
  errorMsg : Option String
deriving DecidableEq

/-- A freshly submitted Task: Queued, all keys pending, no outcomes. -/
def initTask (keys : List String) : SchedTask :=
  ⟨TaskPhase.queued, keys, [], 0, keys.length, none⟩

/-- Outcome of one Evaluator call. -/
def outcomeOf (r : Except String Nat) : ItemOutcome :=
  match r with
  | Except.ok _ => ItemOutcome.succeeded
  | Except.error m => ItemOutcome.failed m

/-- Modelled from the spec: one step of the Task Scheduler (§4.5). A queued
Task starts running; a running Task with pending keys attempts the next
key, records its outcome (success or failure), and increments the completed
counter; a running Task with nothing pending transitions to Completed.
No step of the scheduler itself produces Failed. -/
def schedStep (evalF : String → Except String Nat) (t : SchedTask) : SchedTask :=
  match t.phase, t.pending with
  | TaskPhase.queued, _ => { t with phase := TaskPhase.running }
  | TaskPhase.running, k :: rest =>
    { t with
      pending := rest
      outcomes := t.outcomes ++ [outcomeOf (evalF k)]
      completedCount := t.completedCount + 1 }
  | TaskPhase.running, [] => { t with phase := TaskPhase.completed }
  | _, _ => t

/-- Modelled from the spec: a scheduler-level infrastructure failure moves
the Task to Failed with the systemic error recorded, preserving the
already-recorded item outcomes (§4.5). -/
def infraFail (t : SchedTask) (msg : String) : SchedTask :=
  { t with phase := TaskPhase.failed, errorMsg := some msg }

/-- Iterate the scheduler for a bounded number of steps. -/
def schedRun (evalF : String → Except String Nat) : Nat → SchedTask → SchedTask
  | 0, t => t
  | n + 1, t => schedRun evalF n (schedStep evalF t)

/- ===================== Frontend job/evaluation merge ===================== -/

/-- A job as listed by the frontend (src/glassresumatch-ai/services/apiClient.ts
Job, restricted to the fields the merge uses). -/
structure UIJob where
  id : String
  title : Option String
deriving DecidableEq

/-- An evaluation as fetched by the frontend, keyed by `job_id`. -/
structure UIEvaluation where
  jobId : String
  jobMatchScore : Option Int
deriving DecidableEq

/-- Modelled from the spec: the backend `GET /api/evaluations?skip=&limit=`
returns the slice of stored evaluations given by skip and limit (route
implementation not in the repository snapshot; this is the paging contract
the frontend relies on). -/
def getEvaluationsPage (all : List UIEvaluation) (skip limit : Nat) :
    List UIEvaluation :=
  (all.drop skip).take limit

/-- The JS `Map` built by `evaluations.forEach(e => evalMap.set(e.job_id, e))`
in jobService.ts: a later row for the same job id overwrites an earlier
one, and `get` returns the surviving row. -/
def evalMapGet (page : List UIEvaluation) (j : String) : Option UIEvaluation :=
  page.foldl (fun acc e => if e.jobId = j then some e else acc) none

/-- The merged record produced for each job (jobService.ts
JobWithEvaluation): the job, the optional evaluation from the map, and the
`isEvaluated` flag (`evalMap.has(job.id)`). -/
structure JobWithEvaluation where
  job : UIJob
  evaluation : Option UIEvaluation
  isEvaluated : Bool
deriving DecidableEq

/-- Embeds jobService.ts fetchJobsWithEvaluations (lines 30-47): fetches a
single page of at most 1000 evaluations (`getEvaluations(0, 1000)`), builds
the map, and marks each listed job evaluated iff its id is in the map. -/
def fetchJobsWithEvaluations (jobs : List UIJob) (allEvals : List UIEvaluation) :
    List JobWithEvaluation :=
  let page := getEvaluationsPage allEvals 0 1000
  jobs.map (fun j => ⟨j, evalMapGet page j.id, (evalMapGet page j.id).isSome⟩)

/- ===================== Helper lemmas: evaluations store ===================== -/

theorem evalJobIds_upsert (tbl : List EvaluationRow) (r : EvaluationRow) :
    evalJobIds (upsertEvaluation tbl r) =
      if r.jobId ∈ evalJobIds tbl then evalJobIds tbl
      else evalJobIds tbl ++ [r.jobId] := by
  induction tbl with
  | nil => simp [upsertEvaluation, evalJobIds]
  | cons q tbl ih =>
    by_cases h : q.jobId = r.jobId
    · simp [upsertEvaluation, h, evalJobIds]
    · have hne : ¬ r.jobId = q.jobId := fun hh => h hh.symm
      have step : upsertEvaluation (q :: tbl) r = q :: upsertEvaluation tbl r := by
        simp [upsertEvaluation, h]
      have lcons : ∀ (p : EvaluationRow) (l : List EvaluationRow),
          evalJobIds (p :: l) = p.jobId :: evalJobIds l := fun _ _ => rfl
      rw [step, lcons, ih]
      by_cases hm : r.jobId ∈ evalJobIds tbl
      · have hc : r.jobId ∈ evalJobIds (q :: tbl) := by
          rw [lcons]
          exact List.mem_cons_of_mem _ hm
        rw [if_pos hm, if_pos hc, lcons]
      · have hnc : r.jobId ∉ evalJobIds (q :: tbl) := by
          rw [lcons]
          simp [hne, hm]
        rw [if_neg hm, if_neg hnc, lcons]
        simp

theorem mem_evalJobIds_upsert (tbl : List EvaluationRow) (r : EvaluationRow) :
    r.jobId ∈ evalJobIds (upsertEvaluation tbl r) := by
  rw [evalJobIds_upsert]
  by_cases hm : r.jobId ∈ evalJobIds tbl <;> simp [hm]

theorem nodup_evalJobIds_upsert (tbl : List EvaluationRow) (r : EvaluationRow)
    (hU : (evalJobIds tbl).Nodup) : (evalJobIds (upsertEvaluation tbl r)).Nodup := by
  rw [evalJobIds_upsert]
  by_cases hm : r.jobId ∈ evalJobIds tbl
  · simp [hm, hU]
  · rw [if_neg hm, List.nodup_append]
    refine ⟨hU, List.nodup_singleton _, ?_⟩
    intro x hx hx1
    simp at hx1
    rw [hx1] at hx
    exact hm hx

theorem getStoredEvaluation_upsert_self (tbl : List EvaluationRow) (r : EvaluationRow) :
    getStoredEvaluation (upsertEvaluation tbl r) r.jobId = some r := by
  induction tbl with
  | nil => simp [upsertEvaluation, getStoredEvaluation]
  | cons q tbl ih =>
    by_cases h : q.jobId = r.jobId
    · simp [upsertEvaluation, h, getStoredEvaluation]
    · simp [upsertEvaluation, h, getStoredEvaluation, List.find?_cons] at ih ⊢
      exact ih

theorem countP_jobId_eq_one (tbl : List EvaluationRow) (j : String)
    (hU : (evalJobIds tbl).Nodup) (hm : j ∈ evalJobIds tbl) :
    tbl.countP (fun q => q.jobId == j) = 1 := by
  induction tbl with
  | nil => simp [evalJobIds] at hm
  | cons q tbl ih =>
    simp [evalJobIds] at hm hU
    rcases hU with ⟨hq, hU2⟩
    rcases hm with h | h
    · subst h
      have hzero : tbl.countP (fun p => p.jobId == q.jobId) = 0 := by
        rw [List.countP_eq_zero]
        intro a ha
        simp only [beq_iff_eq]
        exact hq a ha
      simp [List.countP_cons, hzero]
    · rw [List.countP_cons]
      have hqj : ¬ q.jobId = j := by
        intro hh
        rcases h with ⟨a, ha, haj⟩
        exact hq a ha (by rw [haj, ← hh])
      have hmem : j ∈ evalJobIds tbl := by
        simp [evalJobIds]
        exact h
      simp [hqj, ih hU2 hmem]

theorem cacheKeyFor_version_injective (j v₁ v₂ : String) (h : v₁ ≠ v₂) :
    cacheKeyFor j v₁ ≠ cacheKeyFor j v₂ := by
  intro he
  apply h
  have hd := congrArg String.data he
  simp only [cacheKeyFor, String.data_append, List.append_assoc,
    List.append_cancel_left_eq] at hd
  exact String.ext hd

theorem mem_upsertEvaluation (tbl : List EvaluationRow) (r q : EvaluationRow)
    (hq : q ∈ upsertEvaluation tbl r) : q ∈ tbl ∨ q = r := by
  induction tbl with
  | nil =>
    simp [upsertEvaluation] at hq
    right
    exact hq
  | cons p tbl ih =>
    by_cases h : p.jobId = r.jobId
    · simp [upsertEvaluation, h] at hq
      rcases hq with h1 | h1
      · right; exact h1
      · left; exact List.mem_cons_of_mem _ h1
    · simp [upsertEvaluation, h] at hq
      rcases hq with h1 | h1
      · left; simp [h1]
      · rcases ih h1 with h2 | h2
        · left; exact List.mem_cons_of_mem _ h2
        · right; exact h2

theorem verdictCheck_spec (o : Option String) (h : verdictCheck o = true) :
    o = none ∨ ∃ v, o = some v ∧ v ∈ verdictValues := by
  cases o with
  | none => exact Or.inl rfl
  | some v => exact Or.inr ⟨v, rfl, by simpa [verdictCheck] using h⟩

theorem scoreCheck_spec (o : Option Int) (h : scoreCheck o = true) :
    o = none ∨ ∃ s, o = some s ∧ 0 ≤ s ∧ s ≤ 100 := by
  cases o with
  | none => exact Or.inl rfl
  | some s => exact Or.inr ⟨s, rfl, by simpa [scoreCheck] using h⟩

theorem actionCheck_spec (o : Option String) (h : actionCheck o = true) :
    o = none ∨ ∃ a, o = some a ∧ a ∈ recommendedActionValues := by
  cases o with
  | none => exact Or.inl rfl
  | some a => exact Or.inr ⟨a, rfl, by simpa [actionCheck] using h⟩

theorem rowPassesChecks_spec (q : EvaluationRow) (h : rowPassesChecks q = true) :
    (q.verdict = none ∨ ∃ v, q.verdict = some v ∧ v ∈ verdictValues) ∧
    (q.jobMatchScore = none ∨ ∃ s, q.jobMatchScore = some s ∧ 0 ≤ s ∧ s ≤ 100) ∧
    (q.recommendedAction = none ∨
      ∃ a, q.recommendedAction = some a ∧ a ∈ recommendedActionValues) := by
  simp only [rowPassesChecks, Bool.and_eq_true] at h
  obtain ⟨⟨h1, h2⟩, h3⟩ := h
  exact ⟨verdictCheck_spec _ h1, scoreCheck_spec _ h2, actionCheck_spec _ h3⟩

/- ===================== Claim C3 ===================== -/

/-- Claim C3, counterexample: the repository's content-hash formula
(DATA_QUALITY_SUGGESTIONS.md: SHA256 of title + company +
description_text[0:100]) applies no case or whitespace normalization, so a
title differing only in letter case, or only in surrounding whitespace,
yields a different hash input and hence a different fingerprint. -/
theorem fingerprint_not_case_whitespace_stable :
    fingerprintInput "Data Engineer" "Acme" "Build pipelines" ≠
      fingerprintInput "data engineer" "Acme" "Build pipelines" ∧
    fingerprintInput " Data Engineer " "Acme" "Build pipelines" ≠
      fingerprintInput "Data Engineer" "Acme" "Build pipelines" := by
  constructor <;> decide

/-- Claim C3 (amended): the fingerprint is deterministic in the exact
title, the exact company, and the first 100 characters of the description:
two RawPostings whose title and company agree exactly (including case and
whitespace) and whose descriptions agree on their first 100 characters
receive the same fingerprint; differences beyond the first 100 description
characters never change it. -/
theorem fingerprintInput_agree (t c d₁ d₂ : String)
    (h : d₁.take 100 = d₂.take 100) :
    fingerprintInput t c d₁ = fingerprintInput t c d₂ := by
  simp [fingerprintInput, h]

theorem fingerprintInput_agree_witness :
    ("abcdefghijklmnopqrstuvwxyzabcdefghijklmnopqrstuvwxyzabcdefghijklmnopqrstuvwxyzabcdefghijklmnopqrstuvwxyzEXTRA1").take 100 =
      ("abcdefghijklmnopqrstuvwxyzabcdefghijklmnopqrstuvwxyzabcdefghijklmnopqrstuvwxyzabcdefghijklmnopqrstuvwxyzEXTRA2").take 100 ∧
    fingerprintInput "Data Engineer" "Acme"
        "abcdefghijklmnopqrstuvwxyzabcdefghijklmnopqrstuvwxyzabcdefghijklmnopqrstuvwxyzabcdefghijklmnopqrstuvwxyzEXTRA1" =
      fingerprintInput "Data Engineer" "Acme"
        "abcdefghijklmnopqrstuvwxyzabcdefghijklmnopqrstuvwxyzabcdefghijklmnopqrstuvwxyzabcdefghijklmnopqrstuvwxyzEXTRA2" :=
  ⟨by decide, fingerprintInput_agree _ _ _ _ (by decide)⟩

/- ===================== Claim C9 ===================== -/

/-- Claim C9, counterexample: the CHECK constraints of `job_evaluations`
pass NULL values, so the store admits a row whose verdict, score and
recommended action are all NULL; for such a persisted row the verdict is
not one of the three verdict strings and no score bound holds. -/
theorem evaluation_checks_allow_null :
    writeEvaluation [] ⟨"job-1", none, none, none, none⟩ =
      some [⟨"job-1", none, none, none, none⟩] ∧
    (⟨"job-1", none, none, none, none⟩ : EvaluationRow).verdict ∉
      verdictValues.map some ∧
    (⟨"job-1", none, none, none, none⟩ : EvaluationRow).recommendedAction ∉
      recommendedActionValues.map some ∧
    (⟨"job-1", none, none, none, none⟩ : EvaluationRow).jobMatchScore = none := by
  refine ⟨by decide, by decide, by decide, rfl⟩

/-- Claim C9 (amended): every write the evaluations store admits satisfies
the CHECK constraints, so in any table whose prior rows pass the checks,
after an admitted write every row has verdict NULL or one of
Strong/Moderate/Weak Match, score NULL or between 0 and 100, and
recommended action NULL or one of apply/tailor/skip; NULL itself is
admitted, non-NULL-ness is not enforced. -/
theorem writeEvaluation_respects_checks (tbl tbl' : List EvaluationRow)
    (r : EvaluationRow)
    (hprev : ∀ q ∈ tbl, rowPassesChecks q = true)
    (hw : writeEvaluation tbl r = some tbl') :
    ∀ q ∈ tbl', rowPassesChecks q = true ∧
      (q.verdict = none ∨ ∃ v, q.verdict = some v ∧ v ∈ verdictValues) ∧
      (q.jobMatchScore = none ∨ ∃ s, q.jobMatchScore = some s ∧ 0 ≤ s ∧ s ≤ 100) ∧
      (q.recommendedAction = none ∨
        ∃ a, q.recommendedAction = some a ∧ a ∈ recommendedActionValues) := by
  have hr : rowPassesChecks r = true := by
    by_cases hc : rowPassesChecks r = true
    · exact hc
    · simp [writeEvaluation, hc] at hw
  have hup : tbl' = upsertEvaluation tbl r := by
    simp [writeEvaluation, hr] at hw
    exact hw.symm
  intro q hq
  rw [hup] at hq
  rcases mem_upsertEvaluation tbl r q hq with h | h
  · exact ⟨hprev q h, rowPassesChecks_spec q (hprev q h)⟩
  · subst h
    exact ⟨hr, rowPassesChecks_spec q hr⟩

theorem writeEvaluation_respects_checks_witness :
    rowPassesChecks ⟨"job-1", some "Strong Match", some 80, some "apply", some "gpt-4o-mini"⟩ = true ∧
    ((⟨"job-1", some "Strong Match", some 80, some "apply", some "gpt-4o-mini"⟩ : EvaluationRow).verdict = none ∨
      ∃ v, (⟨"job-1", some "Strong Match", some 80, some "apply", some "gpt-4o-mini"⟩ : EvaluationRow).verdict = some v ∧
        v ∈ verdictValues) ∧
    ((⟨"job-1", some "Strong Match", some 80, some "apply", some "gpt-4o-mini"⟩ : EvaluationRow).jobMatchScore = none ∨
      ∃ s, (⟨"job-1", some "Strong Match", some 80, some "apply", some "gpt-4o-mini"⟩ : EvaluationRow).jobMatchScore = some s ∧
        0 ≤ s ∧ s ≤ 100) ∧
    ((⟨"job-1", some "Strong Match", some 80, some "apply", some "gpt-4o-mini"⟩ : EvaluationRow).recommendedAction = none ∨
      ∃ a, (⟨"job-1", some "Strong Match", some 80, some "apply", some "gpt-4o-mini"⟩ : EvaluationRow).recommendedAction = some a ∧
        a ∈ recommendedActionValues) :=
  writeEvaluation_respects_checks []
    [⟨"job-1", some "Strong Match", some 80, some "apply", some "gpt-4o-mini"⟩]
    ⟨"job-1", some "Strong Match", some 80, some "apply", some "gpt-4o-mini"⟩
    (by simp) (by decide)
    ⟨"job-1", some "Strong Match", some 80, some "apply", some "gpt-4o-mini"⟩
    (by simp)

/- ===================== Claim C6 ===================== -/

/-- Claim C6, counterexample: `job_evaluations.job_id` is UNIQUE, so the
durable store cannot hold two independent EvaluationResults for one job:
storing the result computed under resume version v2 after the one computed
under v1 leaves exactly one row for the job (the v2 row), not two. -/
theorem evaluation_store_not_version_isolated :
    upsertEvaluation
        (upsertEvaluation [] ⟨"job-1", some "Strong Match", some 80, some "apply", some "model-at-resume-v1"⟩)
        ⟨"job-1", some "Weak Match", some 40, some "skip", some "model-at-resume-v2"⟩ =
      [⟨"job-1", some "Weak Match", some 40, some "skip", some "model-at-resume-v2"⟩] ∧
    SqlColumn.mk "job_id" true ∈ jobEvaluationsColumns := by
  constructor <;> decide

/-- Claim C6 (amended): the durable evaluations store keys results by job
id alone (`job_id TEXT UNIQUE`): writing the result computed under resume
version v2 replaces the one computed under v1 in place, so after the second
write exactly one row exists for the job and a read returns the v2 result,
never the v1 one; the two results are never independently stored. Only the
proposed in-memory cache key `eval:{job_id}:{master_resume_version}`
distinguishes resume versions. -/
theorem evaluation_store_overwrites_per_job (tbl : List EvaluationRow)
    (r₁ r₂ : EvaluationRow) (hid : r₁.jobId = r₂.jobId)
    (hU : (evalJobIds tbl).Nodup) :
    (upsertEvaluation (upsertEvaluation tbl r₁) r₂).countP
        (fun q => q.jobId == r₂.jobId) = 1 ∧
    getStoredEvaluation (upsertEvaluation (upsertEvaluation tbl r₁) r₂)
        r₂.jobId = some r₂ ∧
    getStoredEvaluation (upsertEvaluation (upsertEvaluation tbl r₁) r₂)
        r₁.jobId = some r₂ ∧
    (evalJobIds (upsertEvaluation (upsertEvaluation tbl r₁) r₂)).Nodup ∧
    (∀ j v₁ v₂ : String, v₁ ≠ v₂ → cacheKeyFor j v₁ ≠ cacheKeyFor j v₂) := by
  have hU1 : (evalJobIds (upsertEvaluation tbl r₁)).Nodup :=
    nodup_evalJobIds_upsert tbl r₁ hU
  have hU2 : (evalJobIds (upsertEvaluation (upsertEvaluation tbl r₁) r₂)).Nodup :=
    nodup_evalJobIds_upsert _ r₂ hU1
  have hmem : r₂.jobId ∈ evalJobIds (upsertEvaluation (upsertEvaluation tbl r₁) r₂) :=
    mem_evalJobIds_upsert _ r₂
  refine ⟨countP_jobId_eq_one _ _ hU2 hmem, getStoredEvaluation_upsert_self _ r₂, ?_, hU2, ?_⟩
  · rw [hid]
    exact getStoredEvaluation_upsert_self _ r₂
  · intro j v₁ v₂ hv
    exact cacheKeyFor_version_injective j v₁ v₂ hv

theorem evaluation_store_overwrites_per_job_witness :
    (upsertEvaluation
        (upsertEvaluation [] ⟨"job-1", some "Strong Match", some 80, some "apply", some "model-at-resume-v1"⟩)
        ⟨"job-1", some "Weak Match", some 40, some "skip", some "model-at-resume-v2"⟩).countP
      (fun q => q.jobId == "job-1") = 1 ∧
    getStoredEvaluation
        (upsertEvaluation
          (upsertEvaluation [] ⟨"job-1", some "Strong Match", some 80, some "apply", some "model-at-resume-v1"⟩)
          ⟨"job-1", some "Weak Match", some 40, some "skip", some "model-at-resume-v2"⟩)
        "job-1" =
      some ⟨"job-1", some "Weak Match", some 40, some "skip", some "model-at-resume-v2"⟩ ∧
    cacheKeyFor "job-1" "resume-v1" ≠ cacheKeyFor "job-1" "resume-v2" := by
  have h := evaluation_store_overwrites_per_job []
    ⟨"job-1", some "Strong Match", some 80, some "apply", some "model-at-resume-v1"⟩
    ⟨"job-1", some "Weak Match", some 40, some "skip", some "model-at-resume-v2"⟩
    rfl (by simp [evalJobIds])
  exact ⟨h.1, h.2.1, h.2.2.2.2 "job-1" "resume-v1" "resume-v2" (by decide)⟩

/- ===================== Claim C5 ===================== -/

/-- Claim C5: for a key present in the durable store, `getOrCompute`
returns the stored result with zero Evaluator invocations; with
`force = true` the cache is bypassed, the Evaluator is invoked exactly
once, and on success the freshly computed result is returned and stored. -/
theorem getOrCompute_hit_and_force {α : Type} (store : Option α) (r : α)
    (compute : Except String α) :
    (store = some r →
      getOrCompute store false compute = (Except.ok r, some r, 0)) ∧
    (getOrCompute store true compute).2.2 = 1 ∧
    (∀ v, compute = Except.ok v →
      getOrCompute store true compute = (Except.ok v, some v, 1)) := by
  refine ⟨?_, ?_, ?_⟩
  · intro h
    subst h
    rfl
  · cases store <;> cases compute <;> rfl
  · intro v hv
    subst hv
    cases store <;> rfl

theorem getOrCompute_hit_and_force_witness :
    getOrCompute (some 5) false (Except.ok 7) = (Except.ok 5, some 5, 0) ∧
    getOrCompute (some 5) true (Except.ok 7) = (Except.ok 7, some 7, 1) :=
  ⟨(getOrCompute_hit_and_force (some 5) 5 (Except.ok 7)).1 rfl,
   (getOrCompute_hit_and_force (some 5) 5 (Except.ok 7)).2.2 7 rfl⟩

/- ===================== Claim C8 ===================== -/

theorem schedRun_succ (evalF : String → Except String Nat) (n : Nat) (t : SchedTask) :
    schedRun evalF (n + 1) t = schedRun evalF n (schedStep evalF t) := rfl

theorem schedRun_running (evalF : String → Except String Nat) :
    ∀ (pend : List String) (outs : List ItemOutcome) (c tot : Nat),
    schedRun evalF (pend.length + 1)
        ⟨TaskPhase.running, pend, outs, c, tot, none⟩ =
      ⟨TaskPhase.completed, [], outs ++ pend.map (fun k => outcomeOf (evalF k)),
        c + pend.length, tot, none⟩ := by
  intro pend
  induction pend with
  | nil =>
    intro outs c tot
    simp [schedRun, schedStep]
  | cons k rest ih =>
    intro outs c tot
    have h := ih (outs ++ [outcomeOf (evalF k)]) (c + 1) tot
    simp only [List.length_cons]
    rw [schedRun_succ]
    have hstep : schedStep evalF ⟨TaskPhase.running, k :: rest, outs, c, tot, none⟩ =
        ⟨TaskPhase.running, rest, outs ++ [outcomeOf (evalF k)], c + 1, tot, none⟩ := rfl
    rw [hstep, h]
    simp [List.append_assoc]
    omega

/-- Claim C8: a Task driven by the scheduler attempts every key: each
Evaluator failure is recorded as that item's outcome without aborting the
run, the Task reaches Completed with the completed counter equal to the
total once all keys have been attempted, and no scheduler step ever
produces the Failed status — only the separate infrastructure-failure
transition does, and it preserves the already-recorded outcomes. -/
theorem task_per_item_failures_do_not_abort
    (evalF : String → Except String Nat) (keys : List String) :
    schedRun evalF (keys.length + 2) (initTask keys) =
      ⟨TaskPhase.completed, [], keys.map (fun k => outcomeOf (evalF k)),
        keys.length, keys.length, none⟩ ∧
    (∀ t : SchedTask,
      ((schedStep evalF t).phase = TaskPhase.failed ↔ t.phase = TaskPhase.failed)) ∧
    (∀ (t : SchedTask) (m : String),
      (infraFail t m).phase = TaskPhase.failed ∧
      (infraFail t m).outcomes = t.outcomes ∧
      (infraFail t m).errorMsg = some m) := by
  refine ⟨?_, ?_, ?_⟩
  · have hstep : schedStep evalF (initTask keys) =
        ⟨TaskPhase.running, keys, [], 0, keys.length, none⟩ := rfl
    have h := schedRun_running evalF keys [] 0 keys.length
    calc schedRun evalF (keys.length + 2) (initTask keys)
        = schedRun evalF (keys.length + 1) ⟨TaskPhase.running, keys, [], 0, keys.length, none⟩ := by
          rw [schedRun_succ, hstep]
      _ = ⟨TaskPhase.completed, [], [] ++ keys.map (fun k => outcomeOf (evalF k)),
            0 + keys.length, keys.length, none⟩ := h
      _ = ⟨TaskPhase.completed, [], keys.map (fun k => outcomeOf (evalF k)),
            keys.length, keys.length, none⟩ := by simp
  · intro t
    obtain ⟨ph, pend, outs, c, tot, err⟩ := t
    cases ph <;> cases pend <;> simp [schedStep]
  · intro t m
    exact ⟨rfl, rfl, rfl⟩

/- ===================== Claim C7 ===================== -/

theorem softDelete_find? (jobs : List JobRecord) (ids : List String) (j : String) :
    (jobs.map (fun r =>
        if r.cand.id ∈ ids then { r with status := JobStatus.deleted } else r)).find?
        (fun r => r.cand.id == j) =
      (jobs.find? (fun r => r.cand.id == j)).map
        (fun r => if r.cand.id ∈ ids then { r with status := JobStatus.deleted } else r) := by
  rw [List.find?_map]
  have hp : ((fun r : JobRecord => r.cand.id == j) ∘ fun r =>
      if r.cand.id ∈ ids then { r with status := JobStatus.deleted } else r) =
      (fun r : JobRecord => r.cand.id == j) := by
    funext x
    by_cases hx : x.cand.id ∈ ids <;> simp [Function.comp, hx]
  rw [hp]

/-- Claim C7: marking a JobRecord Deleted is a pure status transition: the
record disappears from the default `list`, remains retrievable via `get`
with the include-deleted flag (now carrying Deleted status), is hidden from
`get` without the flag, and the evaluations table is untouched, so the
job's historical EvaluationResults stay readable. -/
theorem softDelete_preserves_evaluations (s : CanonicalStore) (jid : String)
    (r : JobRecord) (hr : getJob s jid true = some r) :
    (∀ q ∈ listJobs (softDeleteJobs s [jid]), q.cand.id ≠ jid) ∧
    getJob (softDeleteJobs s [jid]) jid true =
      some { r with status := JobStatus.deleted } ∧
    getJob (softDeleteJobs s [jid]) jid false = none ∧
    (softDeleteJobs s [jid]).evals = s.evals ∧
    getStoredEvaluation (softDeleteJobs s [jid]).evals jid =
      getStoredEvaluation s.evals jid := by
  have hfind : s.jobs.find? (fun x => x.cand.id == jid) = some r := by
    unfold getJob at hr
    cases hf : s.jobs.find? (fun x => x.cand.id == jid) with
    | none => rw [hf] at hr; exact absurd hr (by simp)
    | some q =>
      rw [hf] at hr
      simp at hr
      rw [hr]
  have hrid : r.cand.id = jid := by
    have := List.find?_some hfind
    simpa using this
  have hmemid : r.cand.id ∈ [jid] := by simp [hrid]
  have hfr : (if r.cand.id ∈ [jid] then { r with status := JobStatus.deleted } else r) =
      { r with status := JobStatus.deleted } := if_pos hmemid
  have hfind2 : (softDeleteJobs s [jid]).jobs.find? (fun x => x.cand.id == jid) =
      some { r with status := JobStatus.deleted } := by
    show (s.jobs.map _).find? _ = _
    rw [softDelete_find?, hfind]
    show some (if r.cand.id ∈ [jid] then { r with status := JobStatus.deleted } else r) = _
    rw [hfr]
  refine ⟨?_, ?_, ?_, rfl, rfl⟩
  · intro q hq
    unfold listJobs at hq
    rw [List.mem_filter] at hq
    obtain ⟨hqmem, hqpred⟩ := hq
    intro hqid
    obtain ⟨x, hxmem, hxq⟩ := List.mem_map.mp hqmem
    have hxid : x.cand.id = jid := by
      by_cases hx : x.cand.id ∈ [jid]
      · simpa using hx
      · rw [if_neg hx] at hxq
        rw [hxq] at hx
        simp [hqid] at hx
    have hqdel : q.status = JobStatus.deleted := by
      rw [← hxq]
      simp [hxid]
    rw [hqdel] at hqpred
    simp at hqpred
  · unfold getJob
    rw [hfind2]
    simp
  · unfold getJob
    rw [hfind2]
    simp

theorem softDelete_preserves_evaluations_witness :
    getJob
        (softDeleteJobs
          ⟨[⟨⟨"j1", "T", "C", "L", "D", "P", "U"⟩, JobStatus.active, 0, 0⟩],
           [⟨"j1", some "Strong Match", some 80, some "apply", none⟩]⟩ ["j1"])
        "j1" true =
      some ⟨⟨"j1", "T", "C", "L", "D", "P", "U"⟩, JobStatus.deleted, 0, 0⟩ ∧
    getJob
        (softDeleteJobs
          ⟨[⟨⟨"j1", "T", "C", "L", "D", "P", "U"⟩, JobStatus.active, 0, 0⟩],
           [⟨"j1", some "Strong Match", some 80, some "apply", none⟩]⟩ ["j1"])
        "j1" false = none ∧
    getStoredEvaluation
        (softDeleteJobs
          ⟨[⟨⟨"j1", "T", "C", "L", "D", "P", "U"⟩, JobStatus.active, 0, 0⟩],
           [⟨"j1", some "Strong Match", some 80, some "apply", none⟩]⟩ ["j1"]).evals
        "j1" =
      getStoredEvaluation [⟨"j1", some "Strong Match", some 80, some "apply", none⟩] "j1" := by
  have h := softDelete_preserves_evaluations
    ⟨[⟨⟨"j1", "T", "C", "L", "D", "P", "U"⟩, JobStatus.active, 0, 0⟩],
     [⟨"j1", some "Strong Match", some 80, some "apply", none⟩]⟩
    "j1" ⟨⟨"j1", "T", "C", "L", "D", "P", "U"⟩, JobStatus.active, 0, 0⟩ (by decide)
  exact ⟨h.2.1, h.2.2.1, h.2.2.2.2⟩

/- ===================== Claim C10 ===================== -/

theorem evalMapGet_aux (j : String) :
    ∀ (page : List UIEvaluation) (acc : Option UIEvaluation),
    (page.foldl (fun a e => if e.jobId = j then some e else a) acc = none) ↔
      (acc = none ∧ ∀ e ∈ page, e.jobId ≠ j) := by
  intro page
  induction page with
  | nil =>
    intro acc
    simp
  | cons e page ih =>
    intro acc
    rw [List.foldl_cons, ih]
    by_cases he : e.jobId = j
    · simp [he]
    · simp [he, and_assoc]

theorem evalMapGet_none_iff (page : List UIEvaluation) (j : String) :
    evalMapGet page j = none ↔ ∀ e ∈ page, e.jobId ≠ j := by
  unfold evalMapGet
  rw [evalMapGet_aux]
  simp

theorem evalMapGet_isSome_iff (page : List UIEvaluation) (j : String) :
    (evalMapGet page j).isSome = true ↔ j ∈ page.map (fun e => e.jobId) := by
  rw [Option.isSome_iff_ne_none, Ne, evalMapGet_none_iff]
  simp only [List.mem_map]
  push_neg
  constructor
  · intro h
    obtain ⟨e, he, hej⟩ := h
    exact ⟨e, he, hej⟩
  · intro h
    obtain ⟨e, he, hej⟩ := h
    exact ⟨e, he, hej⟩

/-- Claim C10: `fetchJobsWithEvaluations` fetches only the first page of at
most 1000 evaluations; a listed job is marked evaluated exactly when its id
occurs among the first 1000 stored evaluations, and a job whose id is not
in that first page is reported with `isEvaluated = false` and no evaluation
attached, even if an evaluation for it exists further in the store. -/
theorem fetchJobs_first_page_only (jobs : List UIJob)
    (allEvals : List UIEvaluation) (j : UIJob) (hj : j ∈ jobs) :
    ∃ entry ∈ fetchJobsWithEvaluations jobs allEvals, entry.job = j ∧
      (entry.isEvaluated = true ↔
        j.id ∈ (allEvals.take 1000).map (fun e => e.jobId)) ∧
      (j.id ∉ (allEvals.take 1000).map (fun e => e.jobId) →
        entry.isEvaluated = false ∧ entry.evaluation = none) := by
  have hpage : getEvaluationsPage allEvals 0 1000 = allEvals.take 1000 := by
    simp [getEvaluationsPage]
  refine ⟨⟨j, evalMapGet (getEvaluationsPage allEvals 0 1000) j.id,
    (evalMapGet (getEvaluationsPage allEvals 0 1000) j.id).isSome⟩, ?_, rfl, ?_, ?_⟩
  · unfold fetchJobsWithEvaluations
    exact List.mem_map_of_mem _ hj
  · rw [hpage]
    exact evalMapGet_isSome_iff _ _
  · intro hnot
    have hnone : evalMapGet (allEvals.take 1000) j.id = none := by
      rw [evalMapGet_none_iff]
      intro e he hej
      exact hnot (List.mem_map.mpr ⟨e, he, hej⟩)
    rw [hpage]
    constructor
    · show (evalMapGet (allEvals.take 1000) j.id).isSome = false
      rw [hnone]
      rfl
    · exact hnone

theorem fetchJobs_first_page_only_witness :
    (⟨⟨"y", none⟩, none, false⟩ : JobWithEvaluation) ∈
      fetchJobsWithEvaluations [(⟨"y", none⟩ : UIJob)]
        (List.replicate 1000 (⟨"x", none⟩ : UIEvaluation) ++
          [(⟨"y", some 50⟩ : UIEvaluation)]) ∧
    (⟨"y", some 50⟩ : UIEvaluation) ∈
      (List.replicate 1000 (⟨"x", none⟩ : UIEvaluation) ++
        [(⟨"y", some 50⟩ : UIEvaluation)]) := by
  have hlen : (List.replicate 1000 (⟨"x", none⟩ : UIEvaluation)).length = 1000 :=
    List.length_replicate 1000 _
  have htake : (List.replicate 1000 (⟨"x", none⟩ : UIEvaluation) ++
      [(⟨"y", some 50⟩ : UIEvaluation)]).take 1000 =
      List.replicate 1000 (⟨"x", none⟩ : UIEvaluation) := List.take_left' hlen
  have hnot : ("y" : String) ∉
      ((List.replicate 1000 (⟨"x", none⟩ : UIEvaluation) ++
        [(⟨"y", some 50⟩ : UIEvaluation)]).take 1000).map (fun e => e.jobId) := by
    rw [htake, List.map_replicate]
    rw [List.mem_replicate]
    intro h
    exact absurd h.2 (by decide)
  obtain ⟨entry, hmem, hjob, hiff, himp⟩ :=
    fetchJobs_first_page_only [(⟨"y", none⟩ : UIJob)]
      (List.replicate 1000 (⟨"x", none⟩ : UIEvaluation) ++
        [(⟨"y", some 50⟩ : UIEvaluation)]) ⟨"y", none⟩
      (List.mem_singleton.mpr rfl)
  obtain ⟨h1, h2⟩ := himp hnot
  have hentry : entry = ⟨⟨"y", none⟩, none, false⟩ := by
    obtain ⟨ej, ee, ei⟩ := entry
    have hej : ej = ⟨"y", none⟩ := hjob
    have hee : ee = none := h2
    have hei : ei = false := h1
    rw [hej, hee, hei]
  constructor
  · rw [← hentry]
    exact hmem
  · exact List.mem_append_right _ (List.mem_singleton.mpr rfl)

/- ===================== Helper lemmas: canonical store ===================== -/

theorem upsertJob_cons_hit (r : JobRecord) (db : List JobRecord)
    (c : CandidateRecord) (t : Nat) (h : r.cand.id = c.id) :
    upsertJob (r :: db) c t = ({ r with cand := c, lastSeen := t } :: db, false) := by
  simp [upsertJob, h]

theorem upsertJob_cons_miss (r : JobRecord) (db : List JobRecord)
    (c : CandidateRecord) (t : Nat) (h : ¬ r.cand.id = c.id) :
    upsertJob (r :: db) c t =
      (r :: (upsertJob db c t).1, (upsertJob db c t).2) := by
  simp [upsertJob, h]

theorem jobIds_cons (r : JobRecord) (db : List JobRecord) :
    jobIds (r :: db) = r.cand.id :: jobIds db := rfl

theorem elookup_cons (r : JobRecord) (db : List JobRecord) (j : String) :
    elookup (r :: db) j =
      if r.cand.id = j then some (eraseLastSeen r) else elookup db j := by
  by_cases h : r.cand.id = j <;> simp [elookup, List.find?_cons, h]

theorem elookup_not_mem (db : List JobRecord) (j : String)
    (h : j ∉ jobIds db) : elookup db j = none := by
  induction db with
  | nil => rfl
  | cons r db ih =>
    rw [jobIds_cons] at h
    rw [elookup_cons]
    have h1 : ¬ r.cand.id = j := fun hh => h (by rw [hh]; exact List.mem_cons_self _ _)
    rw [if_neg h1]
    exact ih (fun hh => h (List.mem_cons_of_mem _ hh))

theorem jobIds_upsert (db : List JobRecord) (c : CandidateRecord) (t : Nat) :
    jobIds (upsertJob db c t).1 =
      if c.id ∈ jobIds db then jobIds db else jobIds db ++ [c.id] := by
  induction db with
  | nil => simp [upsertJob, jobIds]
  | cons r db ih =>
    by_cases h : r.cand.id = c.id
    · rw [upsertJob_cons_hit r db c t h]
      have hc : c.id ∈ jobIds (r :: db) := by
        rw [jobIds_cons, h]
        exact List.mem_cons_self _ _
      rw [if_pos hc, jobIds_cons, jobIds_cons, h]
    · rw [upsertJob_cons_miss r db c t h]
      have hne : ¬ c.id = r.cand.id := fun hh => h hh.symm
      by_cases hm : c.id ∈ jobIds db
      · have hc : c.id ∈ jobIds (r :: db) := by
          rw [jobIds_cons]
          exact List.mem_cons_of_mem _ hm
        rw [jobIds_cons, ih, if_pos hm, if_pos hc, jobIds_cons]
      · have hc : c.id ∉ jobIds (r :: db) := by
          rw [jobIds_cons]
          intro hx
          rcases List.mem_cons.mp hx with hx | hx
          · exact hne hx
          · exact hm hx
        rw [jobIds_cons, ih, if_neg hm, if_neg hc, jobIds_cons, List.cons_append]

theorem upsert_isNew_false (db : List JobRecord) (c : CandidateRecord) (t : Nat)
    (h : c.id ∈ jobIds db) : (upsertJob db c t).2 = false := by
  induction db with
  | nil => simp [jobIds] at h
  | cons r db ih =>
    by_cases hr : r.cand.id = c.id
    · rw [upsertJob_cons_hit r db c t hr]
    · rw [upsertJob_cons_miss r db c t hr]
      rw [jobIds_cons] at h
      rcases List.mem_cons.mp h with h1 | h1
      · exact absurd h1.symm hr
      · exact ih h1

theorem upsert_isNew_true (db : List JobRecord) (c : CandidateRecord) (t : Nat)
    (h : c.id ∉ jobIds db) : (upsertJob db c t).2 = true := by
  induction db with
  | nil => simp [upsertJob]
  | cons r db ih =>
    rw [jobIds_cons] at h
    have hr : ¬ r.cand.id = c.id := fun hh => h (by rw [← hh]; exact List.mem_cons_self _ _)
    rw [upsertJob_cons_miss r db c t hr]
    exact ih (fun hh => h (List.mem_cons_of_mem _ hh))

theorem nodup_jobIds_upsert (db : List JobRecord) (c : CandidateRecord) (t : Nat)
    (hU : (jobIds db).Nodup) : (jobIds (upsertJob db c t).1).Nodup := by
  rw [jobIds_upsert]
  by_cases hm : c.id ∈ jobIds db
  · rw [if_pos hm]
    exact hU
  · rw [if_neg hm, List.nodup_append]
    refine ⟨hU, List.nodup_singleton _, ?_⟩
    intro x hx hx1
    simp at hx1
    rw [hx1] at hx
    exact hm hx

theorem upsert_find_self (db : List JobRecord) (c : CandidateRecord) (t : Nat) :
    ∃ st fs, (upsertJob db c t).1.find? (fun r => r.cand.id == c.id) =
      some ⟨c, st, fs, t⟩ := by
  induction db with
  | nil => exact ⟨JobStatus.active, t, by simp [upsertJob, List.find?_cons]⟩
  | cons r db ih =>
    by_cases h : r.cand.id = c.id
    · refine ⟨r.status, r.firstSeen, ?_⟩
      rw [upsertJob_cons_hit r db c t h]
      simp [List.find?_cons]
    · obtain ⟨st, fs, hfind⟩ := ih
      refine ⟨st, fs, ?_⟩
      rw [upsertJob_cons_miss r db c t h]
      rw [List.find?_cons]
      have hb : (r.cand.id == c.id) = false := by
        simp [h]
      rw [hb]
      exact hfind

theorem elookup_upsert (db : List JobRecord) (c : CandidateRecord) (t : Nat)
    (j : String) :
    elookup (upsertJob db c t).1 j =
      if j = c.id then some (c, stfsOf (elookup db c.id) t) else elookup db j := by
  induction db with
  | nil =>
    by_cases hj : j = c.id
    · simp [upsertJob, elookup_cons, eraseLastSeen, hj, stfsOf, elookup]
    · have : ¬ c.id = j := fun hh => hj hh.symm
      simp [upsertJob, elookup_cons, this, hj, elookup]
  | cons r db ih =>
    by_cases hr : r.cand.id = c.id
    · rw [upsertJob_cons_hit r db c t hr]
      rw [elookup_cons]
      by_cases hj : j = c.id
      · have h1 : ({ r with cand := c, lastSeen := t } : JobRecord).cand.id = j := by
          rw [hj]
        rw [if_pos h1, if_pos hj]
        rw [elookup_cons, if_pos (by rw [hr] : r.cand.id = c.id)]
        simp [eraseLastSeen, stfsOf]
      · have h1 : ¬ ({ r with cand := c, lastSeen := t } : JobRecord).cand.id = j := by
          intro hh
          exact hj (by rw [← hh])
        rw [if_neg h1, if_neg hj]
        rw [elookup_cons, if_neg (by rw [hr]; exact fun hh => hj hh.symm)]
    · rw [upsertJob_cons_miss r db c t hr]
      rw [elookup_cons, ih]
      by_cases hj : j = c.id
      · have h1 : ¬ r.cand.id = j := by
          rw [hj]
          exact hr
        rw [if_neg h1, if_pos hj, if_pos hj]
        rw [elookup_cons, if_neg hr]
      · by_cases h1 : r.cand.id = j
        · rw [if_pos h1, if_neg hj, elookup_cons, if_pos h1]
        · rw [if_neg h1, if_neg hj, if_neg hj, elookup_cons, if_neg h1]

theorem lastMatch_foldl (j : String) (B : List CandidateRecord) :
    ∀ acc : Option CandidateRecord,
    B.foldl (fun a c => if c.id = j then some c else a) acc =
      match B.foldl (fun a c => if c.id = j then some c else a) none with
      | some c => some c
      | none => acc := by
  induction B with
  | nil =>
    intro acc
    rfl
  | cons c B ih =>
    intro acc
    rw [List.foldl_cons, List.foldl_cons, ih, ih (if c.id = j then some c else none)]
    by_cases hc : c.id = j
    · cases h : B.foldl (fun a c => if c.id = j then some c else a) none <;> simp [hc]
    · cases h : B.foldl (fun a c => if c.id = j then some c else a) none <;> simp [hc]

theorem lastMatch_cons (c : CandidateRecord) (B : List CandidateRecord) (j : String) :
    lastMatch (c :: B) j =
      match lastMatch B j with
      | some d => some d
      | none => if c.id = j then some c else none := by
  unfold lastMatch
  rw [List.foldl_cons, lastMatch_foldl]

theorem ingest_cons (db : List JobRecord) (c : CandidateRecord)
    (B : List CandidateRecord) (t : Nat) :
    ingest db (c :: B) t = ingest (upsertJob db c t).1 B t := rfl

theorem jobIds_ingest (B : List CandidateRecord) :
    ∀ (db : List JobRecord) (t : Nat),
    jobIds (ingest db B t) = idsAfter (jobIds db) B := by
  induction B with
  | nil =>
    intro db t
    rfl
  | cons c B ih =>
    intro db t
    rw [ingest_cons, ih]
    unfold idsAfter
    rw [List.foldl_cons]
    congr 1
    rw [jobIds_upsert]

theorem idsAfter_mem_mono (B : List CandidateRecord) :
    ∀ (acc : List String) (x : String), x ∈ acc → x ∈ idsAfter acc B := by
  induction B with
  | nil =>
    intro acc x hx
    exact hx
  | cons c B ih =>
    intro acc x hx
    unfold idsAfter
    rw [List.foldl_cons]
    apply ih
    by_cases hc : c.id ∈ acc
    · rw [if_pos hc]
      exact hx
    · rw [if_neg hc]
      exact List.mem_append_left _ hx

theorem idsAfter_adds (B : List CandidateRecord) :
    ∀ (acc : List String) (c : CandidateRecord), c ∈ B → c.id ∈ idsAfter acc B := by
  induction B with
  | nil =>
    intro acc c hc
    simp at hc
  | cons d B ih =>
    intro acc c hc
    rcases List.mem_cons.mp hc with h | h
    · subst h
      unfold idsAfter
      rw [List.foldl_cons]
      apply idsAfter_mem_mono
      by_cases hd : c.id ∈ acc
      · rw [if_pos hd]
        exact hd
      · rw [if_neg hd]
        exact List.mem_append_right _ (List.mem_singleton.mpr rfl)
    · unfold idsAfter
      rw [List.foldl_cons]
      exact ih _ c h

theorem idsAfter_noop (B : List CandidateRecord) :
    ∀ acc : List String, (∀ c ∈ B, c.id ∈ acc) → idsAfter acc B = acc := by
  induction B with
  | nil =>
    intro acc _
    rfl
  | cons c B ih =>
    intro acc hall
    unfold idsAfter
    rw [List.foldl_cons, if_pos (hall c (List.mem_cons_self _ _))]
    exact ih acc (fun d hd => hall d (List.mem_cons_of_mem _ hd))

theorem nodup_jobIds_ingest (B : List CandidateRecord) :
    ∀ (db : List JobRecord) (t : Nat), (jobIds db).Nodup →
    (jobIds (ingest db B t)).Nodup := by
  induction B with
  | nil =>
    intro db t hU
    exact hU
  | cons c B ih =>
    intro db t hU
    rw [ingest_cons]
    exact ih _ t (nodup_jobIds_upsert db c t hU)

theorem elookup_ingest (B : List CandidateRecord) :
    ∀ (db : List JobRecord) (t : Nat) (j : String),
    elookup (ingest db B t) j =
      match lastMatch B j with
      | some c => some (c, stfsOf (elookup db j) t)
      | none => elookup db j := by
  induction B with
  | nil =>
    intro db t j
    rfl
  | cons c B ih =>
    intro db t j
    rw [ingest_cons, ih, lastMatch_cons]
    cases hB : lastMatch B j with
    | some d =>
      have hst : stfsOf (elookup (upsertJob db c t).1 j) t = stfsOf (elookup db j) t := by
        rw [elookup_upsert]
        by_cases hj : j = c.id
        · rw [if_pos hj, ← hj]
          rfl
        · rw [if_neg hj]
      rw [hst]
    | none =>
      rw [elookup_upsert]
      by_cases hc : c.id = j
      · rw [if_pos (hc.symm), if_pos hc, ← hc]
      · rw [if_neg (fun hh => hc hh.symm), if_neg hc]

theorem elookup_ingest_twice (db : List JobRecord) (B : List CandidateRecord)
    (t₁ t₂ : Nat) (j : String) :
    elookup (ingest (ingest db B t₁) B t₂) j = elookup (ingest db B t₁) j := by
  rw [elookup_ingest, elookup_ingest]
  cases hB : lastMatch B j with
  | some c => rfl
  | none => rfl

theorem elookup_ext (P : List JobRecord) :
    ∀ Q : List JobRecord, (jobIds P).Nodup → (jobIds Q).Nodup →
    jobIds P = jobIds Q → (∀ j, elookup P j = elookup Q j) →
    P.map eraseLastSeen = Q.map eraseLastSeen := by
  induction P with
  | nil =>
    intro Q _ _ hIds _
    cases Q with
    | nil => rfl
    | cons s Q => exact absurd hIds (by simp [jobIds])
  | cons r P ih =>
    intro Q hUP hUQ hIds hlook
    cases Q with
    | nil => exact absurd hIds (by simp [jobIds])
    | cons s Q =>
      rw [jobIds_cons, jobIds_cons] at hIds
      have hid : r.cand.id = s.cand.id := by
        injection hIds
      have hIds2 : jobIds P = jobIds Q := by
        injection hIds
      rw [jobIds_cons] at hUP hUQ
      have hUP2 := List.Nodup.of_cons hUP
      have hUQ2 := List.Nodup.of_cons hUQ
      have hrP : r.cand.id ∉ jobIds P := by
        intro hx
        exact (List.nodup_cons.mp hUP).1 hx
      have hsQ : s.cand.id ∉ jobIds Q := by
        intro hx
        exact (List.nodup_cons.mp hUQ).1 hx
      have hhead : eraseLastSeen r = eraseLastSeen s := by
        have h1 := hlook r.cand.id
        rw [elookup_cons, if_pos rfl, elookup_cons, if_pos hid.symm] at h1
        injection h1
      have htail : ∀ j, elookup P j = elookup Q j := by
        intro j
        by_cases hj : j = r.cand.id
        · subst hj
          rw [elookup_not_mem P _ hrP, elookup_not_mem Q _ (by rw [hid]; exact hsQ)]
        · have h1 := hlook j
          rw [elookup_cons, elookup_cons] at h1
          rw [if_neg (fun hh => hj hh.symm)] at h1
          rw [if_neg (fun hh => hj (by rw [← hh, hid]))] at h1
          exact h1
      rw [List.map_cons, List.map_cons, hhead, ih Q hUP2 hUQ2 hIds2 htail]

/- ===================== Claim C2 ===================== -/

/-- Claim C2, counterexample: the `jobs` table (001_initial_schema.sql plus
002_enhance_jobs_schema.sql) has no fingerprint or content-hash column and
no uniqueness constraint besides the primary key on `id`, and every created
index is non-unique; the store therefore maintains no unique index on
Fingerprint — deduplication is keyed by the external id instead. -/
theorem jobs_schema_no_fingerprint_index :
    (jobsColumns.filter (fun c => c.isUnique)).map (fun c => c.name) = ["id"] ∧
    "fingerprint" ∉ jobsColumns.map (fun c => c.name) ∧
    "content_hash" ∉ jobsColumns.map (fun c => c.name) ∧
    jobsIndexes.all (fun ix => !ix.isUnique) = true := by
  refine ⟨by decide, by decide, by decide, by decide⟩

/-- Claim C2 (amended): ingestion deduplicates on the stable external id
rather than on a Fingerprint: the jobs schema's only uniqueness constraint
is the primary key on `id`. With the upsert keyed by id, ingesting a batch
twice leaves exactly the records of ingesting it once — same ids, same
candidate fields, same status and first-seen — with only last-seen
timestamps possibly differing; ids stay unique; re-ingesting an existing id
updates the record in place (candidate fields win, last-seen refreshed,
isNew = false) and a novel id is inserted with isNew = true. -/
theorem ingest_idempotent_by_id (db : List JobRecord) (B : List CandidateRecord)
    (t₁ t₂ : Nat) (hU : (jobIds db).Nodup) :
    (ingest (ingest db B t₁) B t₂).map eraseLastSeen =
      (ingest db B t₁).map eraseLastSeen ∧
    (jobIds (ingest db B t₁)).Nodup ∧
    (∀ (c : CandidateRecord) (t : Nat), c.id ∈ jobIds db →
      (upsertJob db c t).2 = false ∧ jobIds (upsertJob db c t).1 = jobIds db) ∧
    (∀ (c : CandidateRecord) (t : Nat), c.id ∉ jobIds db →
      (upsertJob db c t).2 = true) ∧
    (∀ (c : CandidateRecord) (t : Nat), ∃ st fs,
      (upsertJob db c t).1.find? (fun r => r.cand.id == c.id) =
        some ⟨c, st, fs, t⟩) ∧
    (jobsColumns.filter (fun col => col.isUnique)).map (fun col => col.name) =
      ["id"] := by
  have hU1 : (jobIds (ingest db B t₁)).Nodup := nodup_jobIds_ingest B db t₁ hU
  have hU2 : (jobIds (ingest (ingest db B t₁) B t₂)).Nodup :=
    nodup_jobIds_ingest B _ t₂ hU1
  have hIds : jobIds (ingest (ingest db B t₁) B t₂) = jobIds (ingest db B t₁) := by
    rw [jobIds_ingest]
    apply idsAfter_noop
    intro c hc
    rw [jobIds_ingest]
    exact idsAfter_adds B _ c hc
  refine ⟨elookup_ext _ _ hU2 hU1 hIds
      (fun j => elookup_ingest_twice db B t₁ t₂ j),
    hU1, ?_, ?_, ?_, by decide⟩
  · intro c t hc
    exact ⟨upsert_isNew_false db c t hc, by rw [jobIds_upsert, if_pos hc]⟩
  · intro c t hc
    exact upsert_isNew_true db c t hc
  · intro c t
    exact upsert_find_self db c t

theorem ingest_idempotent_by_id_witness :
    (ingest (ingest
        [⟨⟨"j1", "Data Engineer", "Acme", "Dublin", "Build pipelines", "2026-01-01", "urlA"⟩,
          JobStatus.active, 0, 0⟩]
        [⟨"j1", "Data Engineer II", "Acme", "Dublin", "Build pipelines v2", "2026-01-02", "urlB"⟩] 1)
        [⟨"j1", "Data Engineer II", "Acme", "Dublin", "Build pipelines v2", "2026-01-02", "urlB"⟩] 2).map
        eraseLastSeen =
      (ingest
        [⟨⟨"j1", "Data Engineer", "Acme", "Dublin", "Build pipelines", "2026-01-01", "urlA"⟩,
          JobStatus.active, 0, 0⟩]
        [⟨"j1", "Data Engineer II", "Acme", "Dublin", "Build pipelines v2", "2026-01-02", "urlB"⟩] 1).map
        eraseLastSeen ∧
    (upsertJob
        [⟨⟨"j1", "Data Engineer", "Acme", "Dublin", "Build pipelines", "2026-01-01", "urlA"⟩,
          JobStatus.active, 0, 0⟩]
        ⟨"j1", "Data Engineer II", "Acme", "Dublin", "Build pipelines v2", "2026-01-02", "urlB"⟩ 5).2 =
      false ∧
    jobIds (upsertJob
        [⟨⟨"j1", "Data Engineer", "Acme", "Dublin", "Build pipelines", "2026-01-01", "urlA"⟩,
          JobStatus.active, 0, 0⟩]
        ⟨"j1", "Data Engineer II", "Acme", "Dublin", "Build pipelines v2", "2026-01-02", "urlB"⟩ 5).1 =
      jobIds
        [⟨⟨"j1", "Data Engineer", "Acme", "Dublin", "Build pipelines", "2026-01-01", "urlA"⟩,
          JobStatus.active, 0, 0⟩] := by
  have h := ingest_idempotent_by_id
    [⟨⟨"j1", "Data Engineer", "Acme", "Dublin", "Build pipelines", "2026-01-01", "urlA"⟩,
      JobStatus.active, 0, 0⟩]
    [⟨"j1", "Data Engineer II", "Acme", "Dublin", "Build pipelines v2", "2026-01-02", "urlB"⟩]
    1 2 (by decide)
  have h3 := h.2.2.1
    ⟨"j1", "Data Engineer II", "Acme", "Dublin", "Build pipelines v2", "2026-01-02", "urlB"⟩
    5 (by decide)
  exact ⟨h.1, h3.1, h3.2⟩

/- ===================== Helper lemmas: in-flight protocol ===================== -/

theorem getElem?_some_lt {α : Type} (l : List α) (i : Nat) (a : α)
    (h : l[i]? = some a) : i < l.length := by
  by_contra hge
  rw [List.getElem?_eq_none (Nat.le_of_not_lt hge)] at h
  exact absurd h (by simp)

theorem set_getElem?_same {α : Type} (l : List α) (i : Nat) (b : α)
    (h : i < l.length) : (l.set i b)[i]? = some b := by
  rw [List.getElem?_set_self]
  simp [h]

theorem goodFlight_init (n : Nat) : GoodFlight (initFlight n) := by
  refine ⟨?_, ?_, ?_, ?_⟩
  · intro i hi
    exact absurd hi (by simp [initFlight])
  · intro i hi
    rw [show (initFlight n).callers = List.replicate n CallerPhase.ready from rfl] at hi
    rw [List.getElem?_replicate] at hi
    by_cases hlt : i < n
    · simp [hlt] at hi
    · simp [hlt] at hi
  · intro i hi
    exact absurd hi (by simp [initFlight])
  · intro i r hi
    rw [show (initFlight n).callers = List.replicate n CallerPhase.ready from rfl] at hi
    rw [List.getElem?_replicate] at hi
    by_cases hlt : i < n
    · simp [hlt] at hi
    · simp [hlt] at hi

theorem flightStep_sound (s : FlightState) (e : CacheEvent) (s₁ : FlightState)
    (hG : GoodFlight s) (h : flightStep s e = some s₁) :
    GoodFlight s₁ ∧
    storeFlag s₁.store = storeFlag s.store + (if isOkInvocation e = true then 1 else 0) ∧
    s₁.callers.length = s.callers.length := by
  cases e with
  | hitRead i =>
    simp only [flightStep] at h
    split at h
    · rename_i r hc hs
      injection h with h
      have hstore1 : s₁.store = s.store := by rw [← h]
      have hclaim1 : s₁.claim = s.claim := by rw [← h]
      have hcallers1 : s₁.callers = s.callers.set i (CallerPhase.finished r) := by rw [← h]
      have hlt : i < s.callers.length := getElem?_some_lt _ _ _ hc
      have hclaim : s.claim = none := by
        cases hcl : s.claim with
        | none => rfl
        | some k =>
          have h2 := hG.claim_store k hcl
          rw [h2] at hs
          exact absurd hs (by simp)
      refine ⟨⟨?_, ?_, ?_, ?_⟩, ?_, ?_⟩
      · intro k hk
        rw [hclaim1, hclaim] at hk
        exact absurd hk (by simp)
      · intro k hk
        rw [hcallers1] at hk
        by_cases hki : k = i
        · subst hki
          rw [set_getElem?_same _ _ _ hlt] at hk
          exact absurd hk (by simp)
        · rw [List.getElem?_set_ne (fun hh => hki hh.symm)] at hk
          have h2 := hG.computing_claim k hk
          rw [hclaim] at h2
          exact absurd h2 (by simp)
      · intro k hk
        rw [hclaim1, hclaim] at hk
        exact absurd hk (by simp)
      · intro k w hk
        rw [hcallers1] at hk
        rw [hstore1]
        by_cases hki : k = i
        · subst hki
          rw [set_getElem?_same _ _ _ hlt] at hk
          injection hk with hk
          injection hk with hk
          rw [hs, hk]
        · rw [List.getElem?_set_ne (fun hh => hki hh.symm)] at hk
          exact hG.finished_store k w hk
      · rw [hstore1]
        simp [isOkInvocation]
      · rw [hcallers1]
        simp
    · exact absurd h (by simp)
  | acquireClaim i =>
    simp only [flightStep] at h
    split at h
    · rename_i hc hs hcl
      injection h with h
      have hstore1 : s₁.store = s.store := by rw [← h]
      have hclaim1 : s₁.claim = some i := by rw [← h]
      have hcallers1 : s₁.callers = s.callers.set i CallerPhase.computing := by rw [← h]
      have hlt : i < s.callers.length := getElem?_some_lt _ _ _ hc
      refine ⟨⟨?_, ?_, ?_, ?_⟩, ?_, ?_⟩
      · intro k hk
        rw [hclaim1] at hk
        injection hk with hk
        subst hk
        rw [hcallers1]
        exact set_getElem?_same _ _ _ hlt
      · intro k hk
        rw [hclaim1]
        by_cases hki : k = i
        · rw [hki]
        · rw [hcallers1, List.getElem?_set_ne (fun hh => hki hh.symm)] at hk
          have h2 := hG.computing_claim k hk
          rw [hcl] at h2
          exact absurd h2 (by simp)
      · intro k hk
        rw [hstore1]
        exact hs
      · intro k w hk
        rw [hcallers1] at hk
        by_cases hki : k = i
        · subst hki
          rw [set_getElem?_same _ _ _ hlt] at hk
          exact absurd hk (by simp)
        · rw [List.getElem?_set_ne (fun hh => hki hh.symm)] at hk
          have h2 := hG.finished_store k w hk
          rw [hs] at h2
          exact absurd h2 (by simp)
      · rw [hstore1]
        simp [isOkInvocation]
      · rw [hcallers1]
        simp
    · exact absurd h (by simp)
  | computeOk i v =>
    simp only [flightStep] at h
    split at h
    · rename_i j hc hcl
      by_cases hij : i = j
      · rw [if_pos hij] at h
        injection h with h
        subst hij
        have hstore1 : s₁.store = some v := by rw [← h]
        have hclaim1 : s₁.claim = none := by rw [← h]
        have hcallers1 : s₁.callers = s.callers.set i (CallerPhase.finished v) := by rw [← h]
        have hlt : i < s.callers.length := getElem?_some_lt _ _ _ hc
        have hsnone : s.store = none := hG.claim_store i hcl
        refine ⟨⟨?_, ?_, ?_, ?_⟩, ?_, ?_⟩
        · intro k hk
          rw [hclaim1] at hk
          exact absurd hk (by simp)
        · intro k hk
          rw [hcallers1] at hk
          by_cases hki : k = i
          · subst hki
            rw [set_getElem?_same _ _ _ hlt] at hk
            exact absurd hk (by simp)
          · rw [List.getElem?_set_ne (fun hh => hki hh.symm)] at hk
            have h2 := hG.computing_claim k hk
            rw [hcl] at h2
            injection h2 with h2
            exact absurd h2.symm hki
        · intro k hk
          rw [hclaim1] at hk
          exact absurd hk (by simp)
        · intro k w hk
          rw [hstore1]
          rw [hcallers1] at hk
          by_cases hki : k = i
          · subst hki
            rw [set_getElem?_same _ _ _ hlt] at hk
            injection hk with hk
            injection hk with hk
            rw [hk]
          · rw [List.getElem?_set_ne (fun hh => hki hh.symm)] at hk
            have h2 := hG.finished_store k w hk
            rw [hsnone] at h2
            exact absurd h2 (by simp)
        · rw [hstore1, hsnone]
          simp [isOkInvocation, storeFlag]
        · rw [hcallers1]
          simp
      · rw [if_neg hij] at h
        exact absurd h (by simp)
    · exact absurd h (by simp)
  | computeFail i =>
    simp only [flightStep] at h
    split at h
    · rename_i j hc hcl
      by_cases hij : i = j
      · rw [if_pos hij] at h
        injection h with h
        subst hij
        have hstore1 : s₁.store = s.store := by rw [← h]
        have hclaim1 : s₁.claim = none := by rw [← h]
        have hcallers1 : s₁.callers = s.callers.set i CallerPhase.ready := by rw [← h]
        have hlt : i < s.callers.length := getElem?_some_lt _ _ _ hc
        refine ⟨⟨?_, ?_, ?_, ?_⟩, ?_, ?_⟩
        · intro k hk
          rw [hclaim1] at hk
          exact absurd hk (by simp)
        · intro k hk
          rw [hcallers1] at hk
          by_cases hki : k = i
          · subst hki
            rw [set_getElem?_same _ _ _ hlt] at hk
            exact absurd hk (by simp)
          · rw [List.getElem?_set_ne (fun hh => hki hh.symm)] at hk
            have h2 := hG.computing_claim k hk
            rw [hcl] at h2
            injection h2 with h2
            exact absurd h2.symm hki
        · intro k hk
          rw [hclaim1] at hk
          exact absurd hk (by simp)
        · intro k w hk
          rw [hstore1]
          rw [hcallers1] at hk
          by_cases hki : k = i
          · subst hki
            rw [set_getElem?_same _ _ _ hlt] at hk
            exact absurd hk (by simp)
          · rw [List.getElem?_set_ne (fun hh => hki hh.symm)] at hk
            exact hG.finished_store k w hk
        · rw [hstore1]
          simp [isOkInvocation]
        · rw [hcallers1]
          simp
      · rw [if_neg hij] at h
        exact absurd h (by simp)
    · exact absurd h (by simp)

theorem flightRun_sound (tr : List CacheEvent) :
    ∀ (s s' : FlightState), GoodFlight s → flightRun s tr = some s' →
    GoodFlight s' ∧
    tr.countP isOkInvocation + storeFlag s.store = storeFlag s'.store ∧
    s'.callers.length = s.callers.length := by
  induction tr with
  | nil =>
    intro s s' hG hrun
    simp only [flightRun] at hrun
    injection hrun with hrun
    subst hrun
    exact ⟨hG, by simp, rfl⟩
  | cons e tr ih =>
    intro s s' hG hrun
    simp only [flightRun] at hrun
    cases hs1 : flightStep s e with
    | none =>
      rw [hs1] at hrun
      exact absurd hrun (by simp)
    | some s₁ =>
      rw [hs1] at hrun
      have hrun2 : flightRun s₁ tr = some s' := hrun
      obtain ⟨hG1, hflag1, hlen1⟩ := flightStep_sound s e s₁ hG hs1
      obtain ⟨hG2, hflag2, hlen2⟩ := ih s₁ s' hG1 hrun2
      refine ⟨hG2, ?_, by rw [hlen2, hlen1]⟩
      rw [List.countP_cons]
      omega

theorem allFinished_store (s : FlightState) (hG : GoodFlight s)
    (hne : s.callers ≠ []) (hAll : allFinished s) :
    ∃ v, s.store = some v ∧ ∀ p ∈ s.callers, p = CallerPhase.finished v := by
  have h0q : ∃ p, s.callers[0]? = some p := by
    cases hc : s.callers with
    | nil => exact absurd hc hne
    | cons p rest => exact ⟨p, by simp⟩
  obtain ⟨p, hp0⟩ := h0q
  have hlt0 := getElem?_some_lt _ _ _ hp0
  rw [List.getElem?_eq_getElem hlt0] at hp0
  injection hp0 with hp0
  have hpmem : p ∈ s.callers := by
    rw [← hp0]
    exact List.getElem_mem hlt0
  obtain ⟨r, hr⟩ := hAll p hpmem
  have h0 : s.callers[0]? = some (CallerPhase.finished r) := by
    rw [List.getElem?_eq_getElem hlt0, hp0, hr]
  have hst := hG.finished_store 0 r h0
  refine ⟨r, hst, ?_⟩
  intro q hq
  obtain ⟨w, hw⟩ := hAll q hq
  obtain ⟨m, hmlt, hme⟩ := List.getElem_of_mem hq
  have hm : s.callers[m]? = some q := by
    rw [List.getElem?_eq_getElem hmlt, hme]
  rw [hw] at hm
  have h2 := hG.finished_store m w hm
  rw [hst] at h2
  injection h2 with h2
  rw [hw, h2]

theorem invocationCount_eq_ok (tr : List CacheEvent) (h : noFailures tr = true) :
    invocationCount tr = tr.countP isOkInvocation := by
  induction tr with
  | nil => rfl
  | cons e tr ih =>
    rw [noFailures, List.all_cons, Bool.and_eq_true] at h
    obtain ⟨he, htr⟩ := h
    have htr2 : noFailures tr = true := htr
    unfold invocationCount
    rw [List.countP_cons, List.countP_cons]
    have ih2 : tr.countP isInvocation = tr.countP isOkInvocation := ih htr2
    rw [ih2]
    have hif : (if isInvocation e = true then 1 else 0) =
        (if isOkInvocation e = true then 1 else 0) := by
      cases e with
      | hitRead i => rfl
      | acquireClaim i => rfl
      | computeOk i v => rfl
      | computeFail i => exact absurd he (by simp)
    rw [hif]

/- ===================== Claim C1 ===================== -/

/-- Claim C1: in the per-key in-flight protocol (spec §4.4), every state
reachable from the initial empty-cache state with N callers has at most one
caller computing — at most one Evaluator call is ever in flight; and every
interleaving in which no invocation fails and all N ≥ 1 callers finish
contains exactly one Evaluator invocation, with every caller receiving the
identical stored result. -/
theorem getOrCompute_single_flight (n : Nat) (tr : List CacheEvent)
    (s' : FlightState) (hrun : flightRun (initFlight n) tr = some s') :
    (∀ i j : Nat, s'.callers[i]? = some CallerPhase.computing →
      s'.callers[j]? = some CallerPhase.computing → i = j) ∧
    (noFailures tr = true → 0 < n → allFinished s' →
      invocationCount tr = 1 ∧
      ∃ v, s'.store = some v ∧ ∀ p ∈ s'.callers, p = CallerPhase.finished v) := by
  obtain ⟨hG, hflag, hlen⟩ := flightRun_sound tr (initFlight n) s'
    (goodFlight_init n) hrun
  constructor
  · intro i j hi hj
    have h1 := hG.computing_claim i hi
    have h2 := hG.computing_claim j hj
    rw [h1] at h2
    injection h2
  · intro hnf hn hall
    have hlen2 : s'.callers.length = n := by
      rw [hlen]
      simp [initFlight]
    have hne : s'.callers ≠ [] := by
      intro hnil
      rw [hnil] at hlen2
      simp at hlen2
      omega
    obtain ⟨v, hv, hallv⟩ := allFinished_store s' hG hne hall
    refine ⟨?_, v, hv, hallv⟩
    rw [invocationCount_eq_ok tr hnf]
    have hinit : storeFlag (initFlight n).store = 0 := rfl
    rw [hinit] at hflag
    rw [hv] at hflag
    simpa [storeFlag] using hflag

theorem getOrCompute_single_flight_witness :
    invocationCount
      [CacheEvent.acquireClaim 0, CacheEvent.computeOk 0 42, CacheEvent.hitRead 1] = 1 ∧
    ∃ v, (⟨some 42, none, [CallerPhase.finished 42, CallerPhase.finished 42]⟩ :
        FlightState).store = some v ∧
      ∀ p ∈ (⟨some 42, none, [CallerPhase.finished 42, CallerPhase.finished 42]⟩ :
        FlightState).callers, p = CallerPhase.finished v := by
  have h := getOrCompute_single_flight 2
    [CacheEvent.acquireClaim 0, CacheEvent.computeOk 0 42, CacheEvent.hitRead 1]
    ⟨some 42, none, [CallerPhase.finished 42, CallerPhase.finished 42]⟩ (by decide)
  refine h.2 (by decide) (by decide) ?_
  intro p hp
  simp only [List.mem_cons, List.not_mem_nil, or_false] at hp
  rcases hp with h1 | h1
  · exact ⟨42, h1⟩
  · exact ⟨42, h1⟩

/- ===================== Claim C4 ===================== -/

/-- Claim C4: when the claim holder's Evaluator call fails, the failure
writes no result — the store for the key stays empty — and releases the
in-flight claim; consequently any subsequent failure-free completed run
from that state performs exactly one fresh Evaluator invocation: the
Evaluator is retried rather than a cached failure being returned. -/
theorem getOrCompute_failure_releases_and_retries (n i : Nat)
    (tr₁ tr₂ : List CacheEvent) (s₁ s₂ s₃ : FlightState)
    (hrun : flightRun (initFlight n) tr₁ = some s₁)
    (hfail : flightStep s₁ (CacheEvent.computeFail i) = some s₂) :
    s₂.store = none ∧ s₂.claim = none ∧
    (flightRun s₂ tr₂ = some s₃ → noFailures tr₂ = true → allFinished s₃ →
      invocationCount tr₂ = 1) := by
  obtain ⟨hG1, _, hlen1⟩ := flightRun_sound tr₁ (initFlight n) s₁
    (goodFlight_init n) hrun
  have hparts : s₂.claim = none ∧ s₂.store = s₁.store ∧ ∃ j, s₁.claim = some j := by
    have h := hfail
    simp only [flightStep] at h
    split at h
    · rename_i j hc hclaim
      by_cases hij : i = j
      · rw [if_pos hij] at h
        injection h with h
        exact ⟨by rw [← h], by rw [← h], j, hclaim⟩
      · rw [if_neg hij] at h
        exact absurd h (by simp)
    · exact absurd h (by simp)
  obtain ⟨hclaim2, hstoreeq, j, hclaim⟩ := hparts
  have hsnone : s₁.store = none := hG1.claim_store j hclaim
  obtain ⟨hG2, hflag2, hlen2⟩ :=
    flightStep_sound s₁ (CacheEvent.computeFail i) s₂ hG1 hfail
  have hlt : 0 < s₁.callers.length := by
    have hcomp := hG1.claim_computing j hclaim
    have := getElem?_some_lt _ _ _ hcomp
    omega
  have hstore2 : s₂.store = none := by rw [hstoreeq, hsnone]
  refine ⟨hstore2, hclaim2, ?_⟩
  intro hrun2 hnf hall
  obtain ⟨hG3, hflag3, hlen3⟩ := flightRun_sound tr₂ s₂ s₃ hG2 hrun2
  have hne : s₃.callers ≠ [] := by
    intro hnil
    have : s₃.callers.length = 0 := by rw [hnil]; rfl
    rw [hlen3, hlen2] at this
    omega
  obtain ⟨v, hv, _⟩ := allFinished_store s₃ hG3 hne hall
  rw [invocationCount_eq_ok tr₂ hnf]
  rw [hstore2] at hflag3
  rw [hv] at hflag3
  simpa [storeFlag] using hflag3

theorem getOrCompute_failure_releases_and_retries_witness :
    (⟨none, none, [CallerPhase.ready]⟩ : FlightState).store = none ∧
    (⟨none, none, [CallerPhase.ready]⟩ : FlightState).claim = none ∧
    invocationCount [CacheEvent.acquireClaim 0, CacheEvent.computeOk 0 7] = 1 := by
  have h := getOrCompute_failure_releases_and_retries 1 0
    [CacheEvent.acquireClaim 0]
    [CacheEvent.acquireClaim 0, CacheEvent.computeOk 0 7]
    ⟨none, some 0, [CallerPhase.computing]⟩
    ⟨none, none, [CallerPhase.ready]⟩
    ⟨some 7, none, [CallerPhase.finished 7]⟩
    (by decide) (by decide)
  refine ⟨h.1, h.2.1, h.2.2 (by decide) (by decide) ?_⟩
  intro p hp
  simp only [List.mem_cons, List.not_mem_nil, or_false] at hp
  exact ⟨7, hp⟩
